import Mathlib

/-!
Shallow embedding of the `zerocomfy` subnet-authorityd core:
the catalog store (`src/subnet-authorityd/src/cache/db.rs`),
the fingerprint protocol (`src/subnet-authorityd/src/cache/hash.rs`),
the cache actor loop (`src/subnet-authorityd/src/cache_manager.rs`) and
the descriptor conversion (`src/subnet-authorityd/src/mdns/browser.rs`).

Modelling conventions:
* Rust `String` is Lean `String`. Rust compares strings byte-wise over UTF-8;
  byte-wise UTF-8 order coincides with code-point lexicographic order, so
  `instance_name.cmp` is modelled by the structural comparator `charListLe`
  on the strings' character lists.
* `DateTime<Utc>` timestamps are modelled as `Int` instants. The store persists
  them as RFC 3339 text and compares that text with SQLite TEXT (byte) order;
  for the RFC 3339 strings chrono produces, text order agrees with
  chronological order, so the `Int` order is faithful.
* Rust `HashMap<String, String>` (the `txt` records) is modelled as an
  association list `List (String × String)` that makes the map's iteration
  order explicit, because `serde_json` serializes a `HashMap` in iteration
  order. Map-level equality (`HashMap::eq`, used by `service_data_changed`)
  is `txtEq` below; two lists that differ only in order are `txtEq`-equal but
  serialize differently, exactly as in the Rust code.
* `u16` / `u32` / row counts are `Nat` (the code never wraps them).
* Fallible SQLite calls cannot fail in the model (no I/O), so operations
  return their values directly; the actor treats every store call as `Ok`.
-/

namespace Zerocomfy

/-- Model of `std::net::Ipv6Addr`: the eight 16-bit segments. -/
structure Ipv6Addr where
  segs : List Nat
deriving DecidableEq, Repr

/-- Model of `shared::types::ServiceEntry`. Field order follows the Rust
declaration. `txt` is the `HashMap` with its iteration order explicit. -/
structure ServiceEntry where
  service_type : String
  instance_name : String
  hostname : String
  addresses : List Ipv6Addr
  port : Nat
  txt : List (String × String)
  first_seen : Int
  last_seen : Int
  ttl : Nat
  alive : Bool
deriving DecidableEq, Repr

/-- Equality of `txt` records as maps (`HashMap::eq` in Rust): same size and
every key/value pair of the left map is found in the right map. Faithful to
`self.len() == other.len() && self.iter().all(|(k, v)| other.get(k) == Some(v))`
for maps with distinct keys. -/
def txtEq (a b : List (String × String)) : Bool :=
  a.length == b.length && a.all (fun kv => b.lookup kv.1 == some kv.2)

/-! ## Hex rendering -/

/-- Lowercase hex digit, as in `hex::encode` and `core::fmt` `{:x}`. -/
def hexDigit (n : Nat) : Char :=
  if n < 10 then Char.ofNat (48 + n) else Char.ofNat (87 + n)

/-- Two lowercase hex digits of a byte. -/
def hexByte (b : Nat) : List Char :=
  [hexDigit (b / 16), hexDigit (b % 16)]

/-- Lowercase hex encoding of a byte string (`hex::encode`). -/
def hexEncode (bs : List Nat) : String :=
  String.mk (bs.foldr (fun b acc => hexByte b ++ acc) [])

/-- Hex digits of a 16-bit group without leading zeros (`fmt::LowerHex`),
with fuel for structural recursion; `hexStr` supplies enough fuel. -/
def hexStrAux : Nat → Nat → List Char
  | 0, _ => []
  | _, 0 => []
  | fuel + 1, n => hexStrAux fuel (n / 16) ++ [hexDigit (n % 16)]

/-- Rust `{:x}` rendering of a group value. -/
def hexStr (n : Nat) : String :=
  if n == 0 then "0" else String.mk (hexStrAux 8 n)

/-! ## `Ipv6Addr` display (RFC 5952, as implemented by Rust `std`) -/

/-- Length of the run of zero segments starting at the head. -/
def zeroRunLen : List Nat → Nat
  | 0 :: rest => 1 + zeroRunLen rest
  | _ => 0

/-- First longest zero-segment run as `(start, length)`; Rust's scan keeps a
candidate only when strictly longer, i.e. the first longest span wins. -/
def bestZeroRunAux : List Nat → Nat → Nat × Nat → Nat × Nat
  | [], _, best => best
  | x :: rest, i, best =>
    let r := zeroRunLen (x :: rest)
    bestZeroRunAux rest (i + 1) (if best.2 < r then (i, r) else best)

def bestZeroRun (segs : List Nat) : Nat × Nat :=
  bestZeroRunAux segs 0 (0, 0)

/-- Segments joined with `:`. -/
def joinColon (l : List Nat) : String :=
  String.intercalate ":" (l.map hexStr)

/-- Dotted-quad rendering of the low 32 bits (for IPv4-mapped addresses). -/
def ipv4Part (g h : Nat) : String :=
  Nat.repr (g / 256) ++ "." ++ Nat.repr (g % 256) ++ "." ++
  Nat.repr (h / 256) ++ "." ++ Nat.repr (h % 256)

/-- `Display` for `Ipv6Addr` in Rust `std`: IPv4-mapped addresses render as
`::ffff:a.b.c.d`; otherwise the first longest run of two or more zero groups
is compressed to `::` and groups print as lowercase hex without padding. -/
def ipv6Display (a : Ipv6Addr) : String :=
  match a.segs with
  | [0, 0, 0, 0, 0, 65535, g, h] => "::ffff:" ++ ipv4Part g h
  | segs =>
    let best := bestZeroRun segs
    if 1 < best.2 then
      joinColon (segs.take best.1) ++ "::" ++ joinColon (segs.drop (best.1 + best.2))
    else
      joinColon segs

/-! ## JSON serialization (`serde_json::to_string`) -/

/-- Escaping of one character inside a JSON string literal, exactly the
`serde_json` escape table: `"` and `\` get a backslash, the five short
control escapes are used, the remaining control characters use `\u00xx`
with lowercase hex, everything else passes through. -/
def escapeChar (c : Char) : List Char :=
  if c == '\"' then ['\\', '\"']
  else if c == '\\' then ['\\', '\\']
  else if c.toNat == 8 then ['\\', 'b']
  else if c.toNat == 9 then ['\\', 't']
  else if c.toNat == 10 then ['\\', 'n']
  else if c.toNat == 12 then ['\\', 'f']
  else if c.toNat == 13 then ['\\', 'r']
  else if c.toNat < 32 then ['\\', 'u', '0', '0', hexDigit (c.toNat / 16), hexDigit (c.toNat % 16)]
  else [c]

/-- JSON string literal. -/
def jsonString (s : String) : String :=
  String.mk ('\"' :: s.data.foldr (fun c acc => escapeChar c ++ acc) ['\"'])

def jsonBool (b : Bool) : String :=
  if b then "true" else "false"

/-- JSON array from already-serialized items (compact form, no spaces). -/
def jsonArr (items : List String) : String :=
  "[" ++ String.intercalate "," items ++ "]"

/-- JSON object for the `txt` map: key/value pairs in the map's iteration
order, which is how `serde_json` serializes a `HashMap`. -/
def jsonTxt (txt : List (String × String)) : String :=
  "\x7b" ++
    String.intercalate "," (txt.map (fun kv => jsonString kv.1 ++ ":" ++ jsonString kv.2)) ++
  "\x7d"

/-! ## Fingerprint protocol (`cache/hash.rs`) -/

/-- The `HashView` projection from `cache/hash.rs` (Fix #3): only the stable
fields take part in the fingerprint. Field order follows the Rust struct,
which is the `serde` serialization order. -/
structure HashView where
  service_type : String
  instance_name : String
  hostname : String
  addresses : List Ipv6Addr
  port : Nat
  txt : List (String × String)
  alive : Bool
deriving DecidableEq, Repr

def toHashView (s : ServiceEntry) : HashView :=
  ⟨s.service_type, s.instance_name, s.hostname, s.addresses, s.port, s.txt, s.alive⟩

/-- Derived `serde::Serialize` of `HashView` under `serde_json`: a JSON object
with the struct's fields in declaration order; `Ipv6Addr` serializes as its
`Display` string. -/
def jsonView (v : HashView) : String :=
  "\x7b\"service_type\":" ++ jsonString v.service_type ++
  ",\"instance_name\":" ++ jsonString v.instance_name ++
  ",\"hostname\":" ++ jsonString v.hostname ++
  ",\"addresses\":" ++ jsonArr (v.addresses.map (fun a => jsonString (ipv6Display a))) ++
  ",\"port\":" ++ Nat.repr v.port ++
  ",\"txt\":" ++ jsonTxt v.txt ++
  ",\"alive\":" ++ jsonBool v.alive ++ "\x7d"

def jsonViews (vs : List HashView) : String :=
  jsonArr (vs.map jsonView)

/-- Lexicographic comparison of character lists by scalar value. Rust's
`str::cmp` compares UTF-8 bytes, and byte-wise UTF-8 order coincides with
this code-point lexicographic order. -/
def charListLe : List Char → List Char → Bool
  | [], _ => true
  | _ :: _, [] => false
  | a :: as, b :: bs =>
    if a.toNat < b.toNat then true
    else if b.toNat < a.toNat then false
    else charListLe as bs

/-- The comparator of the index sort in `compute_hash`:
`services[a].instance_name.cmp(&services[b].instance_name)`. -/
def nameLe (a b : ServiceEntry) : Prop :=
  charListLe a.instance_name.data b.instance_name.data = true

instance : DecidableRel nameLe := fun a b =>
  inferInstanceAs (Decidable (charListLe a.instance_name.data b.instance_name.data = true))

/-- The sorted entry sequence. Rust's `sort_by` is a stable sort, and the
result of any stable sort is unique, so stable insertion sort models it. -/
def sortedByName (services : List ServiceEntry) : List ServiceEntry :=
  List.insertionSort nameLe services

/-- The exact byte string fed to SHA-256 by `compute_hash`:
`serde_json::to_string` of the sorted, projected views. -/
def hashInput (services : List ServiceEntry) : String :=
  jsonViews ((sortedByName services).map toHashView)

/-! ## UTF-8 encoding (`str::as_bytes`) -/

/-- UTF-8 encoding of one scalar value. -/
def utf8EncodeCharNat (c : Nat) : List Nat :=
  if c < 128 then [c]
  else if c < 2048 then [192 + c / 64, 128 + c % 64]
  else if c < 65536 then [224 + c / 4096, 128 + c / 64 % 64, 128 + c % 64]
  else [240 + c / 262144, 128 + c / 4096 % 64, 128 + c / 64 % 64, 128 + c % 64]

/-- UTF-8 bytes of a string. -/
def utf8Bytes (s : String) : List Nat :=
  s.data.foldr (fun c acc => utf8EncodeCharNat c.toNat ++ acc) []

/-! ## SHA-256 (`sha2::Sha256`), on bytes as `Nat` with explicit mod 2^32 -/

def M32 : Nat := 4294967296

def rotr32 (n x : Nat) : Nat :=
  ((x >>> n) ||| (x <<< (32 - n))) % M32

def not32 (x : Nat) : Nat := x ^^^ 4294967295

def chFn (x y z : Nat) : Nat := (x &&& y) ^^^ (not32 x &&& z)

def majFn (x y z : Nat) : Nat := (x &&& y) ^^^ (x &&& z) ^^^ (y &&& z)

def bigSigma0 (x : Nat) : Nat := rotr32 2 x ^^^ rotr32 13 x ^^^ rotr32 22 x

def bigSigma1 (x : Nat) : Nat := rotr32 6 x ^^^ rotr32 11 x ^^^ rotr32 25 x

def smallSigma0 (x : Nat) : Nat := rotr32 7 x ^^^ rotr32 18 x ^^^ (x >>> 3)

def smallSigma1 (x : Nat) : Nat := rotr32 17 x ^^^ rotr32 19 x ^^^ (x >>> 10)

/-- The eight working variables of the compression function. -/
structure SHAState where
  a : Nat
  b : Nat
  c : Nat
  d : Nat
  e : Nat
  f : Nat
  g : Nat
  h : Nat
deriving DecidableEq, Repr

def initH : SHAState :=
  ⟨1779033703, 3144134277, 1013904242, 2773480762,
   1359893119, 2600822924, 528734635, 1541459225⟩

def K256 : List Nat :=
  [1116352408, 1899447441, 3049323471, 3921009573,
   961987163, 1508970993, 2453635748, 2870763221,
   3624381080, 310598401, 607225278, 1426881987,
   1925078388, 2162078206, 2614888103, 3248222580,
   3835390401, 4022224774, 264347078, 604807628,
   770255983, 1249150122, 1555081692, 1996064986,
   2554220882, 2821834349, 2952996808, 3210313671,
   3336571891, 3584528711, 113926993, 338241895,
   666307205, 773529912, 1294757372, 1396182291,
   1695183700, 1986661051, 2177026350, 2456956037,
   2730485921, 2820302411, 3259730800, 3345764771,
   3516065817, 3600352804, 4094571909, 275423344,
   430227734, 506948616, 659060556, 883997877,
   958139571, 1322822218, 1537002063, 1747873779,
   1955562222, 2024104815, 2227730452, 2361852424,
   2428436474, 2756734187, 3204031479, 3329325298]

/-- One round of the compression function. -/
def shaRound (s : SHAState) (k w : Nat) : SHAState :=
  let t1 := (s.h + bigSigma1 s.e + chFn s.e s.f s.g + k + w) % M32
  let t2 := (bigSigma0 s.a + majFn s.a s.b s.c) % M32
  ⟨(t1 + t2) % M32, s.a, s.b, s.c, (s.d + t1) % M32, s.e, s.f, s.g⟩

def shaRounds : List (Nat × Nat) → SHAState → SHAState
  | [], s => s
  | kw :: rest, s => shaRounds rest (shaRound s kw.1 kw.2)

/-- Message-schedule extension step, on the reversed schedule (most recent
word first): `w[t] = σ1 (w[t-2]) + w[t-7] + σ0 (w[t-15]) + w[t-16]`. -/
def scheduleStep (ws : List Nat) : List Nat :=
  ((smallSigma1 (ws.getD 1 0) + ws.getD 6 0 + smallSigma0 (ws.getD 14 0) + ws.getD 15 0) % M32)
    :: ws

def extendSchedule : Nat → List Nat → List Nat
  | 0, ws => ws
  | n + 1, ws => extendSchedule n (scheduleStep ws)

/-- The 64-word schedule of one block (given as its 16 big-endian words). -/
def schedule (blockWords : List Nat) : List Nat :=
  (extendSchedule 48 blockWords.reverse).reverse

/-- Big-endian 32-bit words of a block's bytes. -/
def bytesToWords : List Nat → List Nat
  | a :: b :: c :: d :: rest => (((a * 256 + b) * 256 + c) * 256 + d) :: bytesToWords rest
  | _ => []

/-- Compression of one 64-byte block into the running hash value. -/
def compress (hs : SHAState) (blockWords : List Nat) : SHAState :=
  let s := shaRounds (K256.zip (schedule blockWords)) hs
  ⟨(hs.a + s.a) % M32, (hs.b + s.b) % M32, (hs.c + s.c) % M32, (hs.d + s.d) % M32,
   (hs.e + s.e) % M32, (hs.f + s.f) % M32, (hs.g + s.g) % M32, (hs.h + s.h) % M32⟩

/-- Split into 64-byte chunks; `fuel` bounds the recursion (callers pass the
list length, which suffices since each step drops 64 > 0 bytes). -/
def chunks64 : Nat → List Nat → List (List Nat)
  | 0, _ => []
  | _, [] => []
  | fuel + 1, l => l.take 64 :: chunks64 fuel (l.drop 64)

/-- Big-endian 64-bit length field. -/
def lenBytes (n : Nat) : List Nat :=
  [n / 72057594037927936 % 256, n / 281474976710656 % 256,
   n / 1099511627776 % 256, n / 4294967296 % 256,
   n / 16777216 % 256, n / 65536 % 256, n / 256 % 256, n % 256]

/-- SHA-256 padding: `0x80`, zeros to 56 mod 64, bit length as 64-bit BE. -/
def padMessage (msg : List Nat) : List Nat :=
  msg ++ 128 :: List.replicate ((119 - msg.length % 64) % 64) 0 ++ lenBytes (msg.length * 8)

/-- Big-endian bytes of one hash word. -/
def wordOut (w : Nat) : List Nat :=
  [w / 16777216 % 256, w / 65536 % 256, w / 256 % 256, w % 256]

/-- SHA-256 digest (32 bytes) of a byte string. -/
def sha256Bytes (msg : List Nat) : List Nat :=
  let padded := padMessage msg
  let final := ((chunks64 padded.length padded).map bytesToWords).foldl compress initH
  wordOut final.a ++ wordOut final.b ++ wordOut final.c ++ wordOut final.d ++
  wordOut final.e ++ wordOut final.f ++ wordOut final.g ++ wordOut final.h

/-- `compute_hash` from `cache/hash.rs`: sort by `instance_name`, project to
`HashView`, serialize with `serde_json`, SHA-256, lowercase hex. -/
def compute_hash (services : List ServiceEntry) : String :=
  hexEncode (sha256Bytes (utf8Bytes (hashInput services)))

/-! ## Catalog store (`cache/db.rs`) -/

/-- The `services` table: one row per `instance_name` (the primary key).
List position is storage order; the spec leaves read order unspecified. -/
abbrev Db := List ServiceEntry

/-- `SELECT ... WHERE instance_name = ?1` (first matching row; the primary
key makes it unique in any reachable table). -/
def getService (db : Db) (name : String) : Option ServiceEntry :=
  db.find? (fun r => r.instance_name == name)

/-- `service_data_changed` from `cache/db.rs` (Fix #7), fields in source
order; `txt` compares as a map (`HashMap::eq`), not by iteration order. -/
def service_data_changed (old new : ServiceEntry) : Bool :=
  decide (old.hostname ≠ new.hostname)
  || decide (old.addresses ≠ new.addresses)
  || decide (old.port ≠ new.port)
  || !(txtEq old.txt new.txt)
  || decide (old.ttl ≠ new.ttl)
  || decide (old.alive ≠ new.alive)
  || decide (old.service_type ≠ new.service_type)

/-- Effect of the `ON CONFLICT(instance_name) DO UPDATE SET ...` clause on
one row: every column is set from the incoming entry except the key and
`first_seen`, which are not in the `SET` list. -/
def upsertRow (entry r : ServiceEntry) : ServiceEntry :=
  if r.instance_name == entry.instance_name then
    { entry with first_seen := r.first_seen }
  else r

/-- `upsert_service`: query the existing row, compute `changed`, then
`INSERT ... ON CONFLICT(instance_name) DO UPDATE SET ...`. On conflict the
`SET` list covers every column except `instance_name` and `first_seen`, so
an existing row keeps its stored `first_seen`; a fresh row takes the
incoming one. Returns the updated table and the `changed` flag. -/
def upsert_service (db : Db) (entry : ServiceEntry) : Db × Bool :=
  let existing := getService db entry.instance_name
  let changed :=
    match existing with
    | some old => service_data_changed old entry
    | none => true
  let db2 :=
    match existing with
    | some _ => db.map (upsertRow entry)
    | none => db ++ [entry]
  (db2, changed)

/-- `mark_dead`: `UPDATE services SET alive = 0, last_seen = now WHERE
instance_name = ?`. Always succeeds, even when no row matches. -/
def mark_dead (db : Db) (name : String) (now : Int) : Db :=
  db.map (fun r =>
    if r.instance_name == name then { r with alive := false, last_seen := now } else r)

/-- Rows hit by the staleness sweep: `last_seen < ?1 AND alive = 1`. -/
def staleHit (cutoff : Int) (r : ServiceEntry) : Bool :=
  decide (r.last_seen < cutoff) && r.alive

/-- `mark_stale`: `UPDATE services SET alive = 0 WHERE last_seen < cutoff
AND alive = 1` with `cutoff = now - stale_after_secs`; returns the updated
table and the affected-row count reported by SQLite. -/
def mark_stale (db : Db) (staleAfterSecs : Nat) (now : Int) : Db × Nat :=
  let cutoff := now - staleAfterSecs
  (db.map (fun r => if staleHit cutoff r then { r with alive := false } else r),
   db.countP (staleHit cutoff))

/-- `prune_stale`: `DELETE FROM services WHERE last_seen < cutoff` with
`cutoff = now - prune_after_secs`; returns the remaining table and the
deleted-row count. -/
def prune_stale (db : Db) (pruneAfterSecs : Nat) (now : Int) : Db × Nat :=
  let cutoff := now - pruneAfterSecs
  (db.filter (fun r => !(decide (r.last_seen < cutoff))),
   db.countP (fun r => decide (r.last_seen < cutoff)))

/-- `get_all_services`: every row, in storage order. -/
def get_all_services (db : Db) : List ServiceEntry := db

/-- `get_services_by_type`: rows with the given `service_type`. -/
def get_services_by_type (db : Db) (t : String) : List ServiceEntry :=
  db.filter (fun r => r.service_type == t)

/-! ## Cache actor (`cache_manager.rs`, `CacheHandle::spawn`) -/

/-- The command protocol, without the per-command reply channels (replies
are pure values here) and without `Shutdown`'s loop break. -/
inductive CacheCommand
  | upsertCmd (entry : ServiceEntry)
  | markDeadCmd (name : String)
  | getAllCmd
  | getByTypeCmd (t : String)
  | getOneCmd (name : String)
  | maintenanceCmd (staleAfterSecs pruneAfterSecs : Nat)
deriving DecidableEq, Repr

/-- Actor state: the store plus the history of values sent through the
`watch::Sender` (`hash_tx`), newest first. -/
structure ActorState where
  db : Db
  published : List String
deriving DecidableEq, Repr

/-- The `recompute_hash` closure (Fix #2): hash the full current catalog
and send it through `hash_tx`. -/
def recompute_hash (s : ActorState) : ActorState :=
  { s with published := compute_hash (get_all_services s.db) :: s.published }

/-- One iteration of the cache thread's command loop. Store calls cannot
fail in this model (no I/O errors), so every `result.is_ok()` /
`matches!(.., Ok(..))` test on a mutation reduces to the `Upsert` changed
flag or to `true`. `Maintenance` runs `mark_stale` then `prune_stale` and
discards both affected-row counts, exactly as the `?`-chained closure does. -/
def step (s : ActorState) (now : Int) : CacheCommand → ActorState
  | .upsertCmd entry =>
    let r := upsert_service s.db entry
    let s2 := { s with db := r.1 }
    if r.2 then recompute_hash s2 else s2
  | .markDeadCmd name =>
    recompute_hash { s with db := mark_dead s.db name now }
  | .maintenanceCmd staleAfterSecs pruneAfterSecs =>
    let r1 := mark_stale s.db staleAfterSecs now
    let r2 := prune_stale r1.1 pruneAfterSecs now
    recompute_hash { s with db := r2.1 }
  | .getAllCmd => s
  | .getByTypeCmd _ => s
  | .getOneCmd _ => s

/-! ## Descriptor conversion (`mdns/browser.rs`, `convert_service_info`) -/

/-- Model of `std::net::IpAddr`. -/
inductive IpAddr
  | v4 (a b c d : Nat)
  | v6 (addr : Ipv6Addr)
deriving DecidableEq, Repr

/-- The fields `convert_service_info` reads from `mdns_sd::ServiceInfo`.
`props` is the key→value property list in iteration order. -/
structure ServiceInfo where
  typ : String
  fullname : String
  host : String
  addrs : List IpAddr
  port : Nat
  props : List (String × String)
deriving DecidableEq, Repr

/-- The `filter_map` keeping only IPv6 addresses. -/
def ipv6Only (l : List IpAddr) : List Ipv6Addr :=
  l.filterMap (fun a =>
    match a with
    | .v6 x => some x
    | .v4 _ _ _ _ => none)

/-- `convert_service_info`: keep IPv6 addresses only; with none left, skip
the descriptor (`None`, so no `Resolved` event is emitted); otherwise build
the entry with `first_seen = last_seen = now`, the default TTL 4500 and
`alive = true`. -/
def convert_service_info (info : ServiceInfo) (now : Int) : Option ServiceEntry :=
  let addresses := ipv6Only info.addrs
  if addresses.isEmpty then none
  else
    some
      { service_type := info.typ
        instance_name := info.fullname
        hostname := info.host
        addresses := addresses
        port := info.port
        txt := info.props
        first_seen := now
        last_seen := now
        ttl := 4500
        alive := true }

/-! ## Auxiliary notions used by the statements -/

/-- Entries that agree on every fingerprinted field (everything except the
freshness metadata `first_seen`, `last_seen`, `ttl`). -/
abbrev viewEq (a b : ServiceEntry) : Prop :=
  toHashView a = toHashView b

/-- `nameLe` strengthened with distinctness of the keys; antisymmetric, so
a sorted list is unique in its permutation class. -/
abbrev nameLeNe (a b : ServiceEntry) : Prop :=
  nameLe a b ∧ a.instance_name ≠ b.instance_name

/-- The store mutations other than upsert (claim C9's scope). -/
inductive NonUpsertWrite
  | markDeadOp (name : String)
  | markStaleOp (staleAfterSecs : Nat)
  | pruneOp (pruneAfterSecs : Nat)
deriving DecidableEq, Repr

def applyNonUpsert (op : NonUpsertWrite) (db : Db) (now : Int) : Db :=
  match op with
  | .markDeadOp name => mark_dead db name now
  | .markStaleOp t => (mark_stale db t now).1
  | .pruneOp t => (prune_stale db t now).1

/-- Big-endian value of a byte string (used to place digests in a finite
type for the pigeonhole argument). -/
def bytesToNat : List Nat → Nat
  | [] => 0
  | b :: bs => b * 256 ^ bs.length + bytesToNat bs

/-! ## Concrete inputs used by counterexamples and witnesses -/

def sampleEntry : ServiceEntry :=
  ⟨"_http._tcp", "fs._http._tcp.local.", "nas.local.", [⟨[64768, 0, 0, 1, 0, 0, 0, 1]⟩],
   8080, [("path", "/api")], 100, 200, 4500, true⟩

/-- Two distinct entries sharing one `instance_name` (a list `compute_hash`
accepts, though no reachable catalog produces it). -/
def dupA : ServiceEntry :=
  ⟨"_http._tcp", "dup._http._tcp.local.", "h1.local.", [], 1, [], 0, 0, 0, true⟩

def dupB : ServiceEntry :=
  { dupA with port := 2 }

def entX : ServiceEntry :=
  ⟨"_http._tcp", "a._http._tcp.local.", "h.local.", [], 80, [], 0, 0, 0, true⟩

def entY : ServiceEntry :=
  { entX with instance_name := "b._http._tcp.local." }

/-- Two entries equal as values — same `txt` map — whose `txt` iteration
orders differ. -/
def txtE1 : ServiceEntry :=
  ⟨"_http._tcp", "t._http._tcp.local.", "h.local.", [], 80,
   [("a", "1"), ("b", "2")], 0, 0, 0, true⟩

def txtE2 : ServiceEntry :=
  { txtE1 with txt := [("b", "2"), ("a", "1")] }

/-- A family of entries differing only in `hostname`. -/
def entHost (n : Nat) : ServiceEntry :=
  ⟨"_http._tcp", "a._http._tcp.local.", String.mk (List.replicate n 'a'),
   [], 80, [], 0, 0, 0, true⟩

/-- A discovered descriptor carrying only IPv4 addresses. -/
def v4OnlyInfo : ServiceInfo :=
  ⟨"_http._tcp", "legacy._http._tcp.local.", "old.local.", [.v4 192 168 1 10], 80, []⟩

/-! ## Order theory of the `instance_name` comparator -/

theorem charListLe_cons (a b : Char) (as bs : List Char) :
    charListLe (a :: as) (b :: bs) = true ↔
      a.toNat < b.toNat ∨ (a.toNat = b.toNat ∧ charListLe as bs = true) := by
  simp only [charListLe]
  split_ifs with h1 h2
  · simp [h1]
  · simp only [Bool.false_eq_true, false_iff]
    rintro (h | ⟨h, -⟩) <;> omega
  · constructor
    · intro h3
      exact Or.inr ⟨by omega, h3⟩
    · rintro (h | ⟨-, h⟩)
      · omega
      · exact h

theorem charListLe_total : ∀ a b : List Char, charListLe a b = true ∨ charListLe b a = true
  | [], _ => Or.inl rfl
  | _ :: _, [] => Or.inr rfl
  | a :: as, b :: bs => by
    rw [charListLe_cons, charListLe_cons]
    rcases charListLe_total as bs with h | h <;>
      rcases Nat.lt_trichotomy a.toNat b.toNat with hc | hc | hc
    · exact Or.inl (Or.inl hc)
    · exact Or.inl (Or.inr ⟨hc, h⟩)
    · exact Or.inr (Or.inl hc)
    · exact Or.inl (Or.inl hc)
    · exact Or.inr (Or.inr ⟨hc.symm, h⟩)
    · exact Or.inr (Or.inl hc)

theorem charListLe_trans : ∀ a b c : List Char,
    charListLe a b = true → charListLe b c = true → charListLe a c = true
  | [], _, _, _, _ => rfl
  | _ :: _, [], _, h1, _ => by simp [charListLe] at h1
  | _ :: _, _ :: _, [], _, h2 => by simp [charListLe] at h2
  | a :: as, b :: bs, c :: cs, h1, h2 => by
    rw [charListLe_cons] at h1 h2 ⊢
    rcases h1 with h1 | ⟨h1e, h1r⟩
    · rcases h2 with h2 | ⟨h2e, -⟩
      · exact Or.inl (by omega)
      · exact Or.inl (by omega)
    · rcases h2 with h2 | ⟨h2e, h2r⟩
      · exact Or.inl (by omega)
      · exact Or.inr ⟨by omega, charListLe_trans as bs cs h1r h2r⟩

theorem charListLe_antisymm : ∀ a b : List Char,
    charListLe a b = true → charListLe b a = true → a = b
  | [], [], _, _ => rfl
  | [], _ :: _, _, h2 => by simp [charListLe] at h2
  | _ :: _, [], h1, _ => by simp [charListLe] at h1
  | a :: as, b :: bs, h1, h2 => by
    rw [charListLe_cons] at h1 h2
    have he : a.toNat = b.toNat := by
      rcases h1 with h1 | ⟨h1, -⟩ <;> rcases h2 with h2 | ⟨h2, -⟩ <;> omega
    have hc : a = b := Char.ext (UInt32.ext he)
    rcases h1 with h1 | ⟨-, h1r⟩
    · exact absurd he (Nat.ne_of_lt h1)
    · rcases h2 with h2 | ⟨-, h2r⟩
      · exact absurd he.symm (Nat.ne_of_lt h2)
      · rw [hc, charListLe_antisymm as bs h1r h2r]

theorem string_eq_of_charListLe {a b : String}
    (h1 : charListLe a.data b.data = true) (h2 : charListLe b.data a.data = true) : a = b := by
  cases a
  cases b
  exact congrArg String.mk (charListLe_antisymm _ _ h1 h2)

instance : IsTotal ServiceEntry nameLe :=
  ⟨fun _ _ => charListLe_total _ _⟩

instance : IsTrans ServiceEntry nameLe :=
  ⟨fun _ _ _ => charListLe_trans _ _ _⟩

instance : IsAntisymm ServiceEntry nameLeNe :=
  ⟨fun _ _ h1 h2 => absurd (string_eq_of_charListLe h1.1 h2.1) h1.2⟩

theorem sortedByName_sorted (l : List ServiceEntry) :
    List.Sorted nameLe (sortedByName l) :=
  List.sorted_insertionSort nameLe l

theorem sortedByName_perm (l : List ServiceEntry) : (sortedByName l).Perm l :=
  List.perm_insertionSort nameLe l

/-- On catalogs with pairwise-distinct instance names (the invariant of any
table keyed by `instance_name`) the sorted sequence is determined by the
multiset of entries. -/
theorem sortedByName_eq_of_perm {L₁ L₂ : List ServiceEntry} (hperm : L₁.Perm L₂)
    (hnd : L₁.Pairwise fun a b => a.instance_name ≠ b.instance_name) :
    sortedByName L₁ = sortedByName L₂ := by
  have p₁ : (sortedByName L₁).Perm L₁ := sortedByName_perm L₁
  have p₂ : (sortedByName L₂).Perm L₂ := sortedByName_perm L₂
  have hp : (sortedByName L₁).Perm (sortedByName L₂) := p₁.trans (hperm.trans p₂.symm)
  have hnd₁ : (sortedByName L₁).Pairwise fun a b => a.instance_name ≠ b.instance_name :=
    (p₁.pairwise_iff fun h => Ne.symm h).mpr hnd
  have hnd₂ : (sortedByName L₂).Pairwise fun a b => a.instance_name ≠ b.instance_name :=
    (hp.pairwise_iff fun h => Ne.symm h).mp hnd₁
  have hs₁ : (sortedByName L₁).Pairwise nameLeNe := (sortedByName_sorted L₁).and hnd₁
  have hs₂ : (sortedByName L₂).Pairwise nameLeNe := (sortedByName_sorted L₂).and hnd₂
  exact List.eq_of_perm_of_sorted hp hs₁ hs₂

/-- C2 (amended): `compute_hash` is invariant under permutation of the
input list whenever the entries carry pairwise-distinct `instance_name`s
(the situation for every list read from the keyed catalog). -/
theorem claimC2_amended (L₁ L₂ : List ServiceEntry) (hperm : L₁.Perm L₂)
    (hnd : L₁.Pairwise fun a b => a.instance_name ≠ b.instance_name) :
    compute_hash L₁ = compute_hash L₂ := by
  unfold compute_hash hashInput
  rw [sortedByName_eq_of_perm hperm hnd]

theorem claimC2_witness :
    compute_hash [entY, entX] = compute_hash [entX, entY] :=
  claimC2_amended [entY, entX] [entX, entY] (List.Perm.swap entX entY [])
    (by decide)

set_option maxRecDepth 10000 in
/-- C2 (counterexample): as stated — over every entry list — permutation
invariance fails. With two entries sharing an `instance_name`, the stable
sort keeps them in input order, so the serialized sequences and their
digests differ. -/
theorem claimC2_counterexample :
    ¬ ∀ (L₁ L₂ : List ServiceEntry), L₁.Perm L₂ → compute_hash L₁ = compute_hash L₂ := by
  intro h
  exact absurd (h [dupA, dupB] [dupB, dupA] (List.Perm.swap dupB dupA [])) (by decide)

/-! ## The fingerprint depends only on the projected views -/

theorem viewEq_name {a b : ServiceEntry} (h : viewEq a b) :
    a.instance_name = b.instance_name :=
  congrArg HashView.instance_name h

theorem nameLe_iff_of_viewEq {a a' b b' : ServiceEntry} (ha : viewEq a a') (hb : viewEq b b') :
    nameLe a b ↔ nameLe a' b' := by
  unfold nameLe
  rw [viewEq_name ha, viewEq_name hb]

theorem orderedInsert_forall₂ {a a' : ServiceEntry} {l l' : List ServiceEntry}
    (ha : viewEq a a') (h : List.Forall₂ viewEq l l') :
    List.Forall₂ viewEq (List.orderedInsert nameLe a l) (List.orderedInsert nameLe a' l') := by
  induction h with
  | nil => exact List.Forall₂.cons ha List.Forall₂.nil
  | cons hbb hrest ih =>
    rename_i b b' bs bs'
    simp only [List.orderedInsert]
    by_cases hab : nameLe a b
    · rw [if_pos hab, if_pos ((nameLe_iff_of_viewEq ha hbb).mp hab)]
      exact List.Forall₂.cons ha (List.Forall₂.cons hbb hrest)
    · rw [if_neg hab, if_neg (fun h2 => hab ((nameLe_iff_of_viewEq ha hbb).mpr h2))]
      exact List.Forall₂.cons hbb ih

theorem sortedByName_forall₂ {l l' : List ServiceEntry} (h : List.Forall₂ viewEq l l') :
    List.Forall₂ viewEq (sortedByName l) (sortedByName l') := by
  induction h with
  | nil => exact List.Forall₂.nil
  | cons hbb hrest ih =>
    simp only [sortedByName, List.insertionSort]
    exact orderedInsert_forall₂ hbb ih

theorem forall₂_viewEq_map {l l' : List ServiceEntry} (h : List.Forall₂ viewEq l l') :
    l.map toHashView = l'.map toHashView := by
  induction h with
  | nil => rfl
  | cons hbb hrest ih => simp only [List.map_cons, hbb, ih]

/-- The digest is a function of the projected views alone: lists whose
entries agree on everything except `first_seen`, `last_seen`, `ttl` hash
identically. -/
theorem compute_hash_viewEq {L₁ L₂ : List ServiceEntry}
    (h : List.Forall₂ viewEq L₁ L₂) : compute_hash L₁ = compute_hash L₂ := by
  unfold compute_hash hashInput
  rw [forall₂_viewEq_map (sortedByName_forall₂ h)]

/-! ## Digests are 32 bounded bytes; their value determines them -/

theorem wordOut_lt {w : Nat} : ∀ b ∈ wordOut w, b < 256 := by
  intro b hb
  simp only [wordOut, List.mem_cons, List.not_mem_nil, or_false] at hb
  rcases hb with rfl | rfl | rfl | rfl <;> exact Nat.mod_lt _ (by norm_num)

theorem sha256Bytes_lt (msg : List Nat) : ∀ b ∈ sha256Bytes msg, b < 256 := by
  intro b hb
  simp only [sha256Bytes, List.mem_append] at hb
  rcases hb with ((((((h | h) | h) | h) | h) | h) | h) | h <;> exact wordOut_lt _ h

theorem sha256Bytes_length (msg : List Nat) : (sha256Bytes msg).length = 32 := by
  simp [sha256Bytes, wordOut]

theorem bytesToNat_lt : ∀ bs : List Nat, (∀ b ∈ bs, b < 256) →
    bytesToNat bs < 256 ^ bs.length
  | [], _ => by simp [bytesToNat]
  | b :: bs, h => by
    simp only [bytesToNat, List.length_cons]
    have h1 : b < 256 := h b (by simp)
    have h2 : bytesToNat bs < 256 ^ bs.length :=
      bytesToNat_lt bs fun x hx => h x (List.mem_cons_of_mem _ hx)
    calc b * 256 ^ bs.length + bytesToNat bs
        < b * 256 ^ bs.length + 256 ^ bs.length := Nat.add_lt_add_left h2 _
      _ = (b + 1) * 256 ^ bs.length := by ring
      _ ≤ 256 * 256 ^ bs.length := Nat.mul_le_mul_right _ (by omega)
      _ = 256 ^ (bs.length + 1) := by rw [pow_succ]; ring

theorem bytesToNat_inj : ∀ bs cs : List Nat, bs.length = cs.length →
    (∀ b ∈ bs, b < 256) → (∀ c ∈ cs, c < 256) →
    bytesToNat bs = bytesToNat cs → bs = cs
  | [], [], _, _, _, _ => rfl
  | [], _ :: _, hl, _, _, _ => by simp at hl
  | _ :: _, [], hl, _, _, _ => by simp at hl
  | b :: bs, c :: cs, hl, hb, hc, he => by
    simp only [List.length_cons, Nat.succ.injEq] at hl
    simp only [bytesToNat] at he
    rw [hl] at he
    have hrb : bytesToNat bs < 256 ^ cs.length := by
      rw [← hl]
      exact bytesToNat_lt bs fun x hx => hb x (List.mem_cons_of_mem _ hx)
    have hrc : bytesToNat cs < 256 ^ cs.length :=
      bytesToNat_lt cs fun x hx => hc x (List.mem_cons_of_mem _ hx)
    have hmod : (b * 256 ^ cs.length + bytesToNat bs) % 256 ^ cs.length
        = (c * 256 ^ cs.length + bytesToNat cs) % 256 ^ cs.length := by rw [he]
    rw [Nat.mul_comm b, Nat.mul_comm c, Nat.mul_add_mod, Nat.mul_add_mod,
      Nat.mod_eq_of_lt hrb, Nat.mod_eq_of_lt hrc] at hmod
    have hbn : b = c := by
      have h2 : b * 256 ^ cs.length = c * 256 ^ cs.length := by omega
      exact Nat.eq_of_mul_eq_mul_right (pow_pos (by norm_num) _) h2
    rw [hbn, bytesToNat_inj bs cs hl
      (fun x hx => hb x (List.mem_cons_of_mem _ hx))
      (fun x hx => hc x (List.mem_cons_of_mem _ hx)) hmod]

theorem entHost_hostname_ne {m n : Nat} (h : m ≠ n) :
    (entHost m).hostname ≠ (entHost n).hostname := by
  simp only [entHost]
  intro he
  have h2 : List.replicate m 'a' = List.replicate n 'a' := congrArg String.data he
  have hlen := congrArg List.length h2
  simp only [List.length_replicate] at hlen
  exact h hlen

/-- C3 (counterexample): the sensitivity half of the claim cannot hold for
every entry. `compute_hash` maps the infinitely many entries that differ
only in `hostname` into the 2^256 possible digests, so two distinct
hostnames share a digest. -/
theorem claimC3_counterexample :
    ¬ ∀ e₁ e₂ : ServiceEntry,
        e₁.service_type = e₂.service_type → e₁.instance_name = e₂.instance_name →
        e₁.addresses = e₂.addresses → e₁.port = e₂.port → e₁.txt = e₂.txt →
        e₁.alive = e₂.alive → e₁.first_seen = e₂.first_seen →
        e₁.last_seen = e₂.last_seen → e₁.ttl = e₂.ttl →
        e₁.hostname ≠ e₂.hostname → compute_hash [e₁] ≠ compute_hash [e₂] := by
  intro hclaim
  have hbound : ∀ k : Nat,
      bytesToNat (sha256Bytes (utf8Bytes (hashInput [entHost k]))) < 2 ^ 256 := by
    intro k
    have hlt := bytesToNat_lt _ (sha256Bytes_lt (utf8Bytes (hashInput [entHost k])))
    rw [sha256Bytes_length] at hlt
    calc bytesToNat (sha256Bytes (utf8Bytes (hashInput [entHost k])))
        < 256 ^ 32 := hlt
      _ = 2 ^ 256 := by norm_num
  obtain ⟨m, n, hmn, hF⟩ := Finite.exists_ne_map_eq_of_infinite
    (fun k : Nat => (⟨_, hbound k⟩ : Fin (2 ^ 256)))
  have hv := congrArg Fin.val hF
  simp only [Fin.val_mk] at hv
  have hsha : sha256Bytes (utf8Bytes (hashInput [entHost m]))
      = sha256Bytes (utf8Bytes (hashInput [entHost n])) :=
    bytesToNat_inj _ _ (by rw [sha256Bytes_length, sha256Bytes_length])
      (sha256Bytes_lt _) (sha256Bytes_lt _) hv
  exact hclaim (entHost m) (entHost n) rfl rfl rfl rfl rfl rfl rfl rfl rfl
    (entHost_hostname_ne hmn) (congrArg hexEncode hsha)

set_option maxRecDepth 20000 in
set_option maxHeartbeats 4000000 in
/-- C3 (amended): the digest is invariant under changes of `first_seen`,
`last_seen`, `ttl` (universally), and changing any one of `hostname`,
`addresses`, `port`, `txt`, `alive`, `service_type` changes it at the
concrete entry below (it cannot do so universally for a fixed-size digest). -/
theorem claimC3_amended :
    (∀ L₁ L₂ : List ServiceEntry, List.Forall₂ viewEq L₁ L₂ →
      compute_hash L₁ = compute_hash L₂)
    ∧ compute_hash [{ sampleEntry with hostname := "other.local." }] ≠ compute_hash [sampleEntry]
    ∧ compute_hash [{ sampleEntry with addresses := [] }] ≠ compute_hash [sampleEntry]
    ∧ compute_hash [{ sampleEntry with port := 9090 }] ≠ compute_hash [sampleEntry]
    ∧ compute_hash [{ sampleEntry with txt := [("path", "/v2")] }] ≠ compute_hash [sampleEntry]
    ∧ compute_hash [{ sampleEntry with alive := false }] ≠ compute_hash [sampleEntry]
    ∧ compute_hash [{ sampleEntry with service_type := "_ssh._tcp" }] ≠ compute_hash [sampleEntry] :=
  ⟨fun _ _ h => compute_hash_viewEq h,
   by decide, by decide, by decide, by decide, by decide, by decide⟩

theorem claimC3_witness :
    compute_hash [{ sampleEntry with first_seen := -5, last_seen := 999, ttl := 1 }]
      = compute_hash [sampleEntry] :=
  claimC3_amended.1 _ _ (List.Forall₂.cons rfl List.Forall₂.nil)

set_option maxRecDepth 10000 in
/-- C4 (code divergence at the failing input): `txtE1` and `txtE2` agree on
every field and carry equal `txt` maps (`txtEq` holds), differing only in
the map's iteration order — yet `compute_hash` produces different digests,
because `serde_json` writes a `HashMap` in iteration order, not in a fixed
key order. -/
theorem claimC4_code_divergence :
    txtEq txtE1.txt txtE2.txt = true
    ∧ txtE1.service_type = txtE2.service_type
    ∧ txtE1.instance_name = txtE2.instance_name
    ∧ txtE1.hostname = txtE2.hostname
    ∧ txtE1.addresses = txtE2.addresses
    ∧ txtE1.port = txtE2.port
    ∧ txtE1.first_seen = txtE2.first_seen
    ∧ txtE1.last_seen = txtE2.last_seen
    ∧ txtE1.ttl = txtE2.ttl
    ∧ txtE1.alive = txtE2.alive
    ∧ compute_hash [txtE1] ≠ compute_hash [txtE2] :=
  ⟨rfl, rfl, rfl, rfl, rfl, rfl, rfl, rfl, rfl, rfl, by decide⟩

/-! ## Cache actor publication discipline (C1) -/

/-- C1 (counterexample): a Maintenance run that changed zero rows still
recomputes and publishes. On an empty catalog both sweeps affect 0 rows,
yet the actor's publication history grows. -/
theorem claimC1_counterexample :
    ¬ ∀ (s : ActorState) (now : Int) (a b : Nat),
        (mark_stale s.db a now).2 = 0 →
        (prune_stale (mark_stale s.db a now).1 b now).2 = 0 →
        (step s now (.maintenanceCmd a b)).published = s.published := by
  intro h
  have h0 := h ⟨[], []⟩ 0 1 1 rfl rfl
  simp [step, recompute_hash] at h0

/-- C1 (amended): the actor publishes a freshly computed fingerprint
exactly after an Upsert that reported `changed = true`, after every
MarkDead, and after every Maintenance run — the latter two regardless of
how many rows they affected (store calls cannot fail in this model, so
`is_ok` is always true). Reads and no-change Upserts publish nothing, and
whenever it publishes, the new head of the history is the fingerprint of
the full post-command catalog. -/
theorem claimC1_amended (s : ActorState) (now : Int) (cmd : CacheCommand) :
    ((step s now cmd).published ≠ s.published ↔
      (∃ e, cmd = .upsertCmd e ∧ (upsert_service s.db e).2 = true)
      ∨ (∃ name, cmd = .markDeadCmd name)
      ∨ (∃ a b, cmd = .maintenanceCmd a b))
    ∧ ((step s now cmd).published ≠ s.published →
        (step s now cmd).published
          = compute_hash (get_all_services (step s now cmd).db) :: s.published) := by
  cases cmd with
  | upsertCmd e =>
    by_cases hc : (upsert_service s.db e).2 = true
    · simp [step, recompute_hash, hc, List.cons_ne_self]
    · simp [step, recompute_hash, hc, Bool.of_not_eq_true hc]
  | markDeadCmd name => simp [step, recompute_hash, List.cons_ne_self]
  | getAllCmd => simp [step]
  | getByTypeCmd t => simp [step]
  | getOneCmd n => simp [step]
  | maintenanceCmd a b => simp [step, recompute_hash, List.cons_ne_self]

theorem claimC1_witness :
    (step ⟨[], []⟩ 0 (.markDeadCmd "x")).published ≠ ([] : List String)
    ∧ (step ⟨[], []⟩ 0 (.markDeadCmd "x")).published
      = compute_hash (get_all_services (step ⟨[], []⟩ 0 (.markDeadCmd "x")).db)
          :: ([] : List String) := by
  have h := claimC1_amended ⟨[], []⟩ 0 (.markDeadCmd "x")
  exact ⟨h.1.mpr (Or.inr (Or.inl ⟨"x", rfl⟩)),
    h.2 (h.1.mpr (Or.inr (Or.inl ⟨"x", rfl⟩)))⟩

/-! ## Prune sweep (C7) -/

/-- C7: pruning deletes exactly the rows with `last_seen` older than
`now − T` (whatever their `alive` flag), keeps every row with `last_seen`
at or after `now − T`, and reports the number of deleted rows. -/
theorem claimC7 (db : Db) (T : Nat) (now : Int) :
    (prune_stale db T now).1 = db.filter (fun r => decide (now - T ≤ r.last_seen))
    ∧ (∀ r, r ∈ (prune_stale db T now).1 ↔ r ∈ db ∧ now - T ≤ r.last_seen)
    ∧ (prune_stale db T now).2
        = (db.filter fun r => decide (r.last_seen < now - T)).length := by
  have hfeq : (prune_stale db T now).1
      = db.filter (fun r => decide (now - T ≤ r.last_seen)) := by
    simp only [prune_stale]
    apply List.filter_congr
    intro r _
    by_cases h : r.last_seen < now - T
    · simp [h, show ¬ (now - T ≤ r.last_seen) by omega]
    · simp [h, show now - T ≤ r.last_seen by omega]
  refine ⟨hfeq, ?_, ?_⟩
  · intro r
    rw [hfeq, List.mem_filter]
    simp
  · simp [prune_stale, List.countP_eq_length_filter]

/-! ## Alive flag monotonicity (C9) -/

/-- C9: no store mutation other than upsert can turn a dead row alive:
any row alive after `mark_dead`, `mark_stale` or `prune_stale` was already
alive (under the same key) before. -/
theorem claimC9 (op : NonUpsertWrite) (db : Db) (now : Int) :
    ∀ r2 ∈ applyNonUpsert op db now, r2.alive = true →
      ∃ r ∈ db, r.instance_name = r2.instance_name ∧ r.alive = true := by
  intro r2 hmem halive
  cases op with
  | markDeadOp name =>
    simp only [applyNonUpsert, mark_dead] at hmem
    obtain ⟨r, hr, hfr⟩ := List.mem_map.mp hmem
    by_cases h : (r.instance_name == name) = true
    · rw [if_pos h] at hfr
      rw [← hfr] at halive
      simp at halive
    · rw [if_neg h] at hfr
      subst hfr
      exact ⟨r, hr, rfl, halive⟩
  | markStaleOp t =>
    simp only [applyNonUpsert, mark_stale] at hmem
    obtain ⟨r, hr, hfr⟩ := List.mem_map.mp hmem
    by_cases h : staleHit (now - t) r = true
    · rw [if_pos h] at hfr
      rw [← hfr] at halive
      simp at halive
    · rw [if_neg h] at hfr
      subst hfr
      exact ⟨r, hr, rfl, halive⟩
  | pruneOp t =>
    simp only [applyNonUpsert, prune_stale] at hmem
    exact ⟨r2, (List.mem_filter.mp hmem).1, rfl, halive⟩

theorem claimC9_witness :
    ∃ r ∈ [sampleEntry], r.instance_name = sampleEntry.instance_name ∧ r.alive = true :=
  claimC9 (.markDeadOp "other") [sampleEntry] 0 sampleEntry (by decide) (by decide)

/-! ## Upsert row bookkeeping (C5, C10) -/

theorem getService_name {db : Db} {name : String} {old : ServiceEntry}
    (h : getService db name = some old) : old.instance_name = name := by
  unfold getService at h
  have h2 := List.find?_some h
  simpa using h2

theorem getService_append_self (db : Db) (e : ServiceEntry)
    (h : getService db e.instance_name = none) :
    getService (db ++ [e]) e.instance_name = some e := by
  unfold getService at h ⊢
  rw [List.find?_append, h]
  simp [List.find?]

theorem upsertRow_pred (e r : ServiceEntry) :
    ((upsertRow e r).instance_name == e.instance_name)
      = (r.instance_name == e.instance_name) := by
  unfold upsertRow
  by_cases h : (r.instance_name == e.instance_name) = true
  · rw [if_pos h]
    simp [h]
  · rw [if_neg h]

theorem getService_map_upsertRow (db : Db) (e : ServiceEntry) :
    getService (db.map (upsertRow e)) e.instance_name
      = (getService db e.instance_name).map (upsertRow e) := by
  unfold getService
  induction db with
  | nil => rfl
  | cons r rest ih =>
    simp only [List.map_cons, List.find?, upsertRow_pred]
    by_cases h : (r.instance_name == e.instance_name) = true
    · simp [h]
    · simp only [Bool.not_eq_true] at h
      simp [h, ih]

theorem upsertRow_self {e old : ServiceEntry} (h : old.instance_name = e.instance_name) :
    upsertRow e old = { e with first_seen := old.first_seen } := by
  unfold upsertRow
  rw [if_pos (by simp [h])]

theorem lookup_eq_of_mem : ∀ {t : List (String × String)} {k : String} {v : String},
    List.Pairwise (fun p q => p.1 ≠ q.1) t → (k, v) ∈ t → t.lookup k = some v := by
  intro t
  induction t with
  | nil => simp
  | cons p rest ih =>
    intro k v hp hm
    rcases List.mem_cons.mp hm with heq | hm2
    · rw [← heq]
      simp [List.lookup]
    · have hk : (k == p.1) = false := by
        obtain ⟨h1, -⟩ := List.pairwise_cons.mp hp
        exact beq_eq_false_iff_ne.mpr fun he => (h1 (k, v) hm2) he.symm
      obtain ⟨-, h2⟩ := List.pairwise_cons.mp hp
      cases p with
      | mk k2 v2 => simp [List.lookup, hk, ih h2 hm2]

theorem txtEq_refl {t : List (String × String)}
    (h : List.Pairwise (fun p q => p.1 ≠ q.1) t) : txtEq t t = true := by
  unfold txtEq
  simp only [beq_self_eq_true, Bool.true_and, List.all_eq_true]
  intro kv hmem
  cases kv with
  | mk k v => simp [lookup_eq_of_mem h hmem]

theorem service_data_changed_self {e : ServiceEntry}
    (h : List.Pairwise (fun p q => p.1 ≠ q.1) e.txt) :
    service_data_changed e e = false := by
  simp [service_data_changed, txtEq_refl h]

/-- C5: `upsert_service` reports `changed = true` exactly when no row with
the key exists or the stored row differs in one of {service_type, hostname,
addresses, port, txt (as a map), ttl, alive}; it always writes the row,
taking every content field, `last_seen` and `ttl` from the incoming entry
even when `changed = false`; and upserting the same entry twice (with
well-formed `txt` keys, a `HashMap` invariant) reports `true` then `false`. -/
theorem claimC5 (db : Db) (e : ServiceEntry) :
    ((upsert_service db e).2 = true ↔
      getService db e.instance_name = none ∨
        ∃ old, getService db e.instance_name = some old ∧
          (old.service_type ≠ e.service_type ∨ old.hostname ≠ e.hostname ∨
           old.addresses ≠ e.addresses ∨ old.port ≠ e.port ∨
           txtEq old.txt e.txt = false ∨ old.ttl ≠ e.ttl ∨ old.alive ≠ e.alive))
    ∧ (∃ w, getService (upsert_service db e).1 e.instance_name = some w ∧
        w.service_type = e.service_type ∧ w.hostname = e.hostname ∧
        w.addresses = e.addresses ∧ w.port = e.port ∧ w.txt = e.txt ∧
        w.last_seen = e.last_seen ∧ w.ttl = e.ttl ∧ w.alive = e.alive)
    ∧ (List.Pairwise (fun p q => p.1 ≠ q.1) e.txt →
        getService db e.instance_name = none →
        (upsert_service db e).2 = true ∧
        (upsert_service (upsert_service db e).1 e).2 = false) := by
  refine ⟨?_, ?_, ?_⟩
  · cases hE : getService db e.instance_name with
    | none => simp [upsert_service, hE]
    | some old =>
      simp only [upsert_service, hE]
      constructor
      · intro hch
        refine Or.inr ⟨old, rfl, ?_⟩
        simp only [service_data_changed, Bool.or_eq_true, decide_eq_true_eq,
          Bool.not_eq_true'] at hch
        tauto
      · rintro (hnone | ⟨old2, hsome, hdiff⟩)
        · exact absurd hnone (by simp)
        · injection hsome with h2
          subst h2
          simp only [service_data_changed, Bool.or_eq_true, decide_eq_true_eq,
            Bool.not_eq_true']
          tauto
  · cases hE : getService db e.instance_name with
    | none =>
      refine ⟨e, ?_, rfl, rfl, rfl, rfl, rfl, rfl, rfl, rfl⟩
      simp only [upsert_service, hE]
      exact getService_append_self db e hE
    | some old =>
      refine ⟨{ e with first_seen := old.first_seen }, ?_, rfl, rfl, rfl, rfl, rfl, rfl, rfl, rfl⟩
      simp only [upsert_service, hE]
      rw [getService_map_upsertRow, hE]
      simp [upsertRow_self (getService_name hE)]
  · intro hnodup hnone
    have h1 : (upsert_service db e).2 = true := by simp [upsert_service, hnone]
    have hg : getService (upsert_service db e).1 e.instance_name = some e := by
      simp only [upsert_service, hnone]
      exact getService_append_self db e hnone
    refine ⟨h1, ?_⟩
    generalize hX : (upsert_service db e).1 = X at hg
    simp only [upsert_service, hg]
    exact service_data_changed_self hnodup

theorem claimC5_witness :
    (upsert_service [] sampleEntry).2 = true ∧
    (upsert_service (upsert_service [] sampleEntry).1 sampleEntry).2 = false :=
  (claimC5 [] sampleEntry).2.2 (by decide) (by decide)

/-- C10: on a key that already has a row, the stored `first_seen` survives
the upsert (the incoming one is ignored); on a fresh key the incoming
`first_seen` is stored. -/
theorem claimC10 (db : Db) (e : ServiceEntry) :
    (∀ old, getService db e.instance_name = some old →
      getService (upsert_service db e).1 e.instance_name
        = some { e with first_seen := old.first_seen })
    ∧ (getService db e.instance_name = none →
      getService (upsert_service db e).1 e.instance_name = some e) := by
  constructor
  · intro old h
    simp only [upsert_service, h]
    rw [getService_map_upsertRow, h]
    simp [upsertRow_self (getService_name h)]
  · intro h
    simp only [upsert_service, h]
    exact getService_append_self db e h

theorem claimC10_witness :
    getService (upsert_service [sampleEntry] { sampleEntry with first_seen := 777 }).1
        (ServiceEntry.instance_name { sampleEntry with first_seen := 777 })
      = some { sampleEntry with first_seen := sampleEntry.first_seen } :=
  (claimC10 [sampleEntry] { sampleEntry with first_seen := 777 }).1 sampleEntry (by decide)

/-! ## Staleness sweep (C6) -/

/-- C6: the staleness sweep flips `alive` to false for exactly the rows
that are alive with `last_seen` older than `now − T`, leaves every other
row untouched (same position, same fields), and returns the number of rows
it affected. -/
theorem claimC6 (db : Db) (T : Nat) (now : Int) :
    ((mark_stale db T now).1.length = db.length)
    ∧ (∀ i : Nat, (mark_stale db T now).1[i]? =
        db[i]?.map fun r =>
          if r.alive = true ∧ r.last_seen < now - T then { r with alive := false } else r)
    ∧ (mark_stale db T now).2
        = (db.filter fun r => decide (r.alive = true ∧ r.last_seen < now - T)).length := by
  refine ⟨by simp [mark_stale], ?_, ?_⟩
  · intro i
    simp only [mark_stale, List.getElem?_map]
    cases hi : db[i]? with
    | none => rfl
    | some r =>
      simp only [Option.map_some']
      congr 1
      by_cases h : r.alive = true ∧ r.last_seen < now - T
      · rw [if_pos (by simp [staleHit, h.1, h.2]), if_pos h]
      · rw [if_neg ?_, if_neg h]
        simp only [staleHit, Bool.and_eq_true, decide_eq_true_eq]
        tauto
  · simp only [mark_stale, List.countP_eq_length_filter]
    congr 1
    apply List.filter_congr
    intro r _
    by_cases ha : r.alive = true <;> by_cases hl : r.last_seen < now - T <;>
      simp [staleHit, ha, hl]

/-! ## Descriptor conversion (C8) -/

/-- C8: the conversion yields no entry exactly when no IPv6 address
survives the filter (in particular for an IPv4-only descriptor), and
otherwise copies the descriptor fields verbatim, keeps only the IPv6
addresses and stamps `first_seen = last_seen = now`, `ttl = 4500`,
`alive = true`. -/
theorem claimC8 (info : ServiceInfo) (now : Int) :
    (convert_service_info info now = none ↔ ipv6Only info.addrs = [])
    ∧ ((∀ a ∈ info.addrs, ∃ x y z w, a = IpAddr.v4 x y z w) →
        convert_service_info info now = none)
    ∧ (∀ e, convert_service_info info now = some e →
        e.service_type = info.typ ∧ e.instance_name = info.fullname ∧
        e.hostname = info.host ∧ e.addresses = ipv6Only info.addrs ∧
        e.port = info.port ∧ e.txt = info.props ∧ e.first_seen = now ∧
        e.last_seen = now ∧ e.ttl = 4500 ∧ e.alive = true) := by
  refine ⟨?_, ?_, ?_⟩
  · by_cases h : (ipv6Only info.addrs).isEmpty
    · simp [convert_service_info, h, List.isEmpty_iff.mp h]
    · rw [convert_service_info, if_neg h]
      simp only [List.isEmpty_iff] at h
      simp [h]
  · intro hall
    have hnil : ipv6Only info.addrs = [] := by
      unfold ipv6Only
      rw [List.filterMap_eq_nil_iff]
      intro a ha
      obtain ⟨x, y, z, w, rfl⟩ := hall a ha
      rfl
    simp [convert_service_info, hnil]
  · intro e he
    rw [convert_service_info] at he
    by_cases h : (ipv6Only info.addrs).isEmpty
    · rw [if_pos h] at he
      cases he
    · rw [if_neg h] at he
      injection he with h2
      subst h2
      exact ⟨rfl, rfl, rfl, rfl, rfl, rfl, rfl, rfl, rfl, rfl⟩

theorem claimC8_witness : convert_service_info v4OnlyInfo 7 = none :=
  (claimC8 v4OnlyInfo 7).2.1 (by
    intro a ha
    simp only [v4OnlyInfo, List.mem_singleton] at ha
    subst ha
    exact ⟨192, 168, 1, 10, rfl⟩)

end Zerocomfy
